import Mathlib

/-!
Verification of the content-addressed fetch cache of yarn-nixpkgs.

JavaScript strings are modelled as `List Char`, byte buffers as `List Nat`
whose elements are below 256. The cryptographic hash library (node's
`crypto.createHash`) is external to the repository and is modelled as a
parameter `hashLib : String → List Char → List Nat` mapping an algorithm
name and input string to a digest buffer.
-/

namespace YarnNixpkgs

/-- Fixed base32 alphabet used by the Nix store path encoding
(source constant `BASE32_CHARSET`). -/
def BASE32_CHARSET : List Char := "0123456789abcdfghijklmnpqrsvwxyz".toList

/-- Cache namespace marker for checksums produced by this cache
(source constant `CACHE_KEY_NS = "nix.1/"`). -/
def CACHE_KEY_NS : List Char := "nix.1/".toList

/-- Model of node crypto: `computeHash(algorithm, data)` delegates to the
external hash library. -/
def computeHash (hashLib : String → List Char → List Nat)
    (algorithm : String) (data : List Char) : List Nat :=
  hashLib algorithm data

/-- Nix-compatible hash compression (source `compressHash`): start from a
zero buffer of length `size` and XOR byte `idx` of the input into position
`idx % size`, iterating `idx` over the input indices in order. -/
def compressHash (hash : List Nat) (size : Nat) : List Nat :=
  (List.range hash.length).foldl
    (fun result idx =>
      result.set (idx % size) (Nat.xor (result.getD (idx % size) 0) (hash.getD idx 0)))
    (List.replicate size 0)

/-- Binary digits of `n`, most significant first, empty for `0`
(the recursive core of JavaScript `n.toString(2)`). -/
def natToBin (n : Nat) : List Nat :=
  if h : n = 0 then [] else natToBin (n / 2) ++ [n % 2]
termination_by n
decreasing_by exact Nat.div_lt_self (Nat.pos_of_ne_zero h) (by omega)

/-- JavaScript `n.toString(2)`: binary digits, `"0"` for zero. -/
def jsToBinString (n : Nat) : List Nat :=
  if n = 0 then [0] else natToBin n

/-- JavaScript `n.toString(2).padStart(8, "0")`: the bit string of a byte,
left-padded with zeros to (at least) 8 digits. -/
def byteBits (b : Nat) : List Nat :=
  let s := jsToBinString b
  List.replicate (8 - s.length) 0 ++ s

/-- Concatenation of a list of bit strings (JavaScript `Array.join("")`). -/
def concatAll : List (List Nat) → List Nat
  | [] => []
  | l :: ls => l ++ concatAll ls

/-- JavaScript `parseInt(s, 2)` on a non-empty string of binary digits. -/
def parseBin (bits : List Nat) : Nat :=
  bits.foldl (fun acc b => 2 * acc + b) 0

/-- Indexing into the base32 alphabet (source `BASE32_CHARSET[k]`). -/
def base32Char (n : Nat) : Char :=
  BASE32_CHARSET.getD n ' '

/-- Loop of the source `encodeBase32`: while bits remain, emit the character
for the first (up to) 5 bits and drop them. -/
def encodeBase32Go (bits : List Nat) : List Char :=
  if h : bits = [] then []
  else base32Char (parseBin (bits.take 5)) :: encodeBase32Go (bits.drop 5)
termination_by bits.length
decreasing_by
  have : bits.length ≠ 0 := fun hl => h (List.eq_nil_of_length_eq_zero hl)
  simp [List.length_drop]
  omega

/-- Nix-compatible base32 encoding (source `encodeBase32`): reverse the
buffer, expand each byte to its 8-bit string, join, then emit one alphabet
character per 5-bit group. -/
def encodeBase32 (buf : List Nat) : List Char :=
  encodeBase32Go (concatAll (buf.reverse.map byteBits))

/-- Boolean test that `p` is a leading segment of `s`
(JavaScript `s.startsWith(p)`). -/
def startsWithChars : List Char → List Char → Bool
  | _, [] => true
  | [], _ :: _ => false
  | c :: cs, p :: ps => c = p && startsWithChars cs ps

/-- Lowercase hex alphabet used by `Buffer.toString("hex")`. -/
def HEX_CHARSET : List Char := "0123456789abcdef".toList

/-- Hex encoding of one byte, two lowercase digits. -/
def byteToHex (b : Nat) : List Char :=
  [HEX_CHARSET.getD (b / 16) ' ', HEX_CHARSET.getD (b % 16) ' ']

/-- JavaScript `buffer.toString("hex")`: lowercase hex digest of a buffer. -/
def bufToHex (buf : List Nat) : List Char :=
  match buf with
  | [] => []
  | b :: bs => byteToHex b ++ bufToHex bs

/-- POSIX `ppath.join(dir, name)` for an absolute `dir` and relative `name`. -/
def jsPathJoin (dir name : List Char) : List Char :=
  dir ++ ['/'] ++ name

/-- Compute the Nix store path for a fixed-output derivation
(source `computeFixedOutputStorePath`). -/
def computeFixedOutputStorePath (hashLib : String → List Char → List Nat)
    (name : List Char) (hash : List Char)
    (hashAlgorithm : List Char := "sha512".toList)
    (storePath : List Char := "/nix/store".toList) : List Char :=
  let hash := if startsWithChars hash CACHE_KEY_NS then hash.drop CACHE_KEY_NS.length else hash
  let innerStr := "fixed:out:".toList ++ hashAlgorithm ++ [':'] ++ hash ++ [':']
  let innerHash := computeHash hashLib "sha256" innerStr
  let innerHashHex := bufToHex innerHash
  let outerStr :=
    "output:out:sha256:".toList ++ innerHashHex ++ [':'] ++ storePath ++ [':'] ++ name
  let outerHash := computeHash hashLib "sha256" outerStr
  let outerHash32 := encodeBase32 (compressHash outerHash 20)
  jsPathJoin storePath (outerHash32 ++ ['-'] ++ name)

/-- Characters allowed in a derivation name: `[a-zA-Z0-9+._?=-]`. -/
def allowedChar (c : Char) : Bool :=
  ('a' ≤ c && c ≤ 'z') || ('A' ≤ c && c ≤ 'Z') || ('0' ≤ c && c ≤ '9') ||
    c = '+' || c = '.' || c = '_' || c = '?' || c = '=' || c = '-'

/-- JavaScript `replace(/[^a-zA-Z0-9+._?=-]+/g, "-")`: each maximal run of
disallowed characters becomes a single dash. -/
def replaceBadRuns : List Char → List Char
  | [] => []
  | c :: rest =>
    if allowedChar c then c :: replaceBadRuns rest
    else '-' :: replaceBadRuns (rest.dropWhile (fun d => !allowedChar d))
termination_by l => l.length
decreasing_by
  · simp
  · have := (List.dropWhile_suffix (l := rest) (fun d => !allowedChar d)).length_le
    simp
    omega

/-- Creates a valid derivation name from a potentially invalid one
(source `sanitizeDerivationName`): strip leading dots, collapse runs of
disallowed characters to a dash, truncate to 207 characters, and fall back
to `"unknown"` when the result is empty. -/
def sanitizeDerivationName (name : List Char) : List Char :=
  if (replaceBadRuns (name.dropWhile (fun c => c = '.'))).take 207 = []
  then "unknown".toList
  else (replaceBadRuns (name.dropWhile (fun c => c = '.'))).take 207

/-- Creates a Nix `fetchurl` derivation name for a locator (source
`locatorDerivationName`); `structUtils.stringifyLocator` is external, so the
locator is modelled by its stringified form. -/
def locatorDerivationName (locatorStr : List Char) : List Char :=
  sanitizeDerivationName (locatorStr ++ ".zip".toList)

/-- Whitespace test backing JavaScript `String.trim`. -/
def isJsSpace (c : Char) : Bool :=
  c = ' ' || c = '\n' || c = '\t' || c = '\r'

/-- JavaScript `s.trim()`: remove leading and trailing whitespace. -/
def jsTrim (s : List Char) : List Char :=
  ((s.dropWhile isJsSpace).reverse.dropWhile isJsSpace).reverse

/-- POSIX `ppath.dirname`: everything before the last slash. -/
def jsDirname (p : List Char) : List Char :=
  if p.contains '/' then
    let r := (p.reverse.dropWhile (fun c => !(c = '/'))).tail
    if r = [] then ['/'] else r.reverse
  else ['.']

/-- Error thrown when the path reported by `nix-store` disagrees with the
locally computed one. -/
def ASSERTION_FAILURE_MSG : List Char :=
  "Assertion failed: nix-store path and computed path mismatch".toList

/-- Error raised by `execUtils.execvp` in strict mode when the `nix-store`
subprocess exits nonzero (message external to the repository). -/
def SUBPROCESS_FAILURE_MSG : List Char :=
  "nix-store subprocess failed".toList

/-- Environment of one `fetchPackageFromNixStore` call: answers the call
gives to each external effect, in program order. `fsBeforeLoad` answers the
existence probe on the predicted path, `loaderResult` is the path returned
by the caller-supplied loader, `fileChecksum` models
`hashUtils.checksumFile`, `fsAfterLoad` answers the existence probe on the
re-derived path, and `importOk` / `importStdout` are the exit status and
standard output of the `nix-store --add-fixed` subprocess. -/
structure FetchEnv where
  fsBeforeLoad : List Char → Bool
  loaderResult : List Char
  fileChecksum : List Char → List Char
  fsAfterLoad : List Char → Bool
  importOk : Bool
  importStdout : List Char

/-- Observable effects of one `fetchPackageFromNixStore` call. -/
structure FetchEffects where
  onHitCalled : Bool
  onMissCalled : Bool
  loaderCalls : Nat
  importCalled : Bool
  discardedArtifact : Bool
  renamedTo : Option (List Char)
deriving DecidableEq

/-- Miss branch of `fetchPackageFromNixStore`: invoke the loader, derive the
namespaced checksum of the produced artifact, re-derive the store path, then
either discard the artifact (path already present) or rename it and import
it via `nix-store --add-fixed sha512`, asserting the reported path. -/
def fetchMissBranch (hashLib : String → List Char → List Nat)
    (env : FetchEnv) (derivationName : List Char) :
    FetchEffects × Except (List Char) (List Char × List Char) :=
  if env.fsAfterLoad (computeFixedOutputStorePath hashLib derivationName
      (CACHE_KEY_NS ++ env.fileChecksum env.loaderResult)) then
    ({ onHitCalled := false, onMissCalled := true, loaderCalls := 1,
       importCalled := false, discardedArtifact := true, renamedTo := none },
     Except.ok (computeFixedOutputStorePath hashLib derivationName
        (CACHE_KEY_NS ++ env.fileChecksum env.loaderResult),
      CACHE_KEY_NS ++ env.fileChecksum env.loaderResult))
  else if !env.importOk then
    ({ onHitCalled := false, onMissCalled := true, loaderCalls := 1,
       importCalled := true, discardedArtifact := false,
       renamedTo := some (jsPathJoin (jsDirname env.loaderResult) derivationName) },
     Except.error SUBPROCESS_FAILURE_MSG)
  else if jsTrim env.importStdout ≠ computeFixedOutputStorePath hashLib derivationName
      (CACHE_KEY_NS ++ env.fileChecksum env.loaderResult) then
    ({ onHitCalled := false, onMissCalled := true, loaderCalls := 1,
       importCalled := true, discardedArtifact := false,
       renamedTo := some (jsPathJoin (jsDirname env.loaderResult) derivationName) },
     Except.error ASSERTION_FAILURE_MSG)
  else
    ({ onHitCalled := false, onMissCalled := true, loaderCalls := 1,
       importCalled := true, discardedArtifact := false,
       renamedTo := some (jsPathJoin (jsDirname env.loaderResult) derivationName) },
     Except.ok (computeFixedOutputStorePath hashLib derivationName
        (CACHE_KEY_NS ++ env.fileChecksum env.loaderResult),
      CACHE_KEY_NS ++ env.fileChecksum env.loaderResult))

/-- Fetch a ZIP package from the Nix store, or invoke the loader (source
`fetchPackageFromNixStore`). The nullable `storePath` local of the source is
inlined: it is non-null exactly when `expectedChecksum` is truthy
(JavaScript: non-null *and* non-empty), and the hit branch requires it to
exist on disk. The returned pair is the store path the archive handle is
opened on and the checksum handed back to the caller. -/
def fetchPackageFromNixStore (hashLib : String → List Char → List Nat)
    (env : FetchEnv) (locatorStr : List Char)
    (expectedChecksum : Option (List Char)) :
    FetchEffects × Except (List Char) (List Char × List Char) :=
  match expectedChecksum with
  | some c =>
    if c = [] then fetchMissBranch hashLib env (locatorDerivationName locatorStr)
    else if env.fsBeforeLoad (computeFixedOutputStorePath hashLib
        (locatorDerivationName locatorStr) c) then
      ({ onHitCalled := true, onMissCalled := false, loaderCalls := 0,
         importCalled := false, discardedArtifact := false, renamedTo := none },
       Except.ok (computeFixedOutputStorePath hashLib (locatorDerivationName locatorStr) c, c))
    else fetchMissBranch hashLib env (locatorDerivationName locatorStr)
  | none => fetchMissBranch hashLib env (locatorDerivationName locatorStr)

/-! Spec-side reference definitions, written from the spec's prose; the
refinement claim compares them with the source translations above. -/

/-- Reference XOR fold described by the spec: position `j` of the output
accumulates, by XOR, every input byte whose index is congruent to `j`
modulo `size`. -/
def specCompressHash (hash : List Nat) (size : Nat) : List Nat :=
  (List.range size).map fun j =>
    ((List.range hash.length).filter fun i => i % size = j).foldl
      (fun acc i => Nat.xor acc (hash.getD i 0)) 0

/-- Successive 5-bit groups of a bit string, the last group possibly
shorter. -/
def bitGroups (bits : List Nat) : List (List Nat) :=
  if h : bits = [] then [] else bits.take 5 :: bitGroups (bits.drop 5)
termination_by bits.length
decreasing_by
  have : bits.length ≠ 0 := fun hl => h (List.eq_nil_of_length_eq_zero hl)
  simp [List.length_drop]
  omega

/-- Reference base32 encoding described by the spec: reversed-byte bit
string, one alphabet character per 5-bit group. -/
def specEncodeBase32 (buf : List Nat) : List Char :=
  (bitGroups (concatAll (buf.reverse.map byteBits))).map fun g => base32Char (parseBin g)

/-- Trivial stand-in hash library used to instantiate witnesses. -/
def constHashLib : String → List Char → List Nat :=
  fun _ _ => List.replicate 32 0

/-- Every byte any digest of the library can contain is an actual byte.
Node's `crypto` digests satisfy this by construction. -/
def HashLibBytes (hashLib : String → List Char → List Nat) : Prop :=
  ∀ a s b, b ∈ hashLib a s → b < 256

/-! Facts about the hash compression loop. -/

lemma compressHash_loop_length (hash : List Nat) (size : Nat) (idxs : List Nat)
    (acc : List Nat) :
    (idxs.foldl (fun result idx =>
      result.set (idx % size) (Nat.xor (result.getD (idx % size) 0) (hash.getD idx 0)))
      acc).length = acc.length := by
  induction idxs generalizing acc with
  | nil => rfl
  | cons i is ih => rw [List.foldl_cons, ih, List.length_set]

lemma compressHash_length (hash : List Nat) (size : Nat) :
    (compressHash hash size).length = size := by
  unfold compressHash
  rw [compressHash_loop_length]
  exact List.length_replicate size 0

lemma compressHash_loop_nil (hash : List Nat) (size : Nat) (idxs : List Nat) :
    (idxs.foldl (fun result idx =>
      result.set (idx % size) (Nat.xor (result.getD (idx % size) 0) (hash.getD idx 0)))
      []) = [] := by
  induction idxs with
  | nil => rfl
  | cons i is ih => simpa using ih

lemma compressHash_loop_getD (hash : List Nat) (size : Nat) (hs : 0 < size) (j : Nat) :
    ∀ n, ((List.range n).foldl (fun result idx =>
        result.set (idx % size) (Nat.xor (result.getD (idx % size) 0) (hash.getD idx 0)))
        (List.replicate size 0)).getD j 0
      = ((List.range n).filter (fun i => i % size = j)).foldl
          (fun acc i => Nat.xor acc (hash.getD i 0)) 0 := by
  intro n
  induction n with
  | zero =>
    simp [List.getD_eq_getElem?_getD, List.getElem?_replicate]
    split <;> simp
  | succ n ih =>
    rw [List.range_succ, List.foldl_append, List.filter_append, List.foldl_append]
    simp only [List.foldl_cons, List.foldl_nil]
    have hL : ((List.range n).foldl (fun result idx =>
        result.set (idx % size) (Nat.xor (result.getD (idx % size) 0) (hash.getD idx 0)))
        (List.replicate size 0)).length = size := by
      rw [compressHash_loop_length]; exact List.length_replicate size 0
    by_cases hj : n % size = j
    · have hjs : j < size := hj ▸ Nat.mod_lt n hs
      rw [hj]
      rw [List.getD_eq_getElem?_getD, List.getElem?_set]
      simp only [hL, if_pos hjs, if_pos rfl, Option.getD_some]
      have hfil : List.filter (fun i => decide (i % size = j)) [n] = [n] := by
        simp [List.filter, hj]
      rw [hfil]
      simp only [List.foldl_cons, List.foldl_nil]
      rw [ih]
      simp
    · rw [List.getD_eq_getElem?_getD, List.getElem?_set, if_neg hj,
        ← List.getD_eq_getElem?_getD, ih]
      have : List.filter (fun i => decide (i % size = j)) [n] = [] := by
        simp [List.filter, hj]
      rw [this]
      rfl

/-- Claim-relevant refinement: the source hash compression computes exactly
the spec-described positional XOR fold. -/
lemma compressHash_eq_specCompressHash (hash : List Nat) (size : Nat) :
    compressHash hash size = specCompressHash hash size := by
  rcases Nat.eq_zero_or_pos size with h0 | hs
  · subst h0
    unfold compressHash specCompressHash
    simpa using compressHash_loop_nil hash 0 (List.range hash.length)
  · apply List.ext_getElem
    · rw [compressHash_length]
      unfold specCompressHash
      simp
    · intro j h1 h2
      have hj : j < size := by rwa [compressHash_length] at h1
      rw [← List.getD_eq_getElem (compressHash hash size) 0 h1,
          ← List.getD_eq_getElem (specCompressHash hash size) 0 h2]
      unfold compressHash
      rw [compressHash_loop_getD hash size hs j]
      unfold specCompressHash
      rw [List.getD_eq_getElem?_getD, List.getElem?_map, List.getElem?_range hj]
      rfl

/-! Facts about the base32 encoding. -/

lemma natToBin_length_le (k : Nat) : ∀ n, n < 2 ^ k → (natToBin n).length ≤ k := by
  induction k with
  | zero =>
    intro n hn
    have : n = 0 := by simpa using hn
    subst this
    rw [natToBin]
    simp
  | succ k ih =>
    intro n hn
    rw [natToBin]
    split
    · simp
    · rename_i h
      rw [List.length_append]
      have hdiv : n / 2 < 2 ^ k := by
        rw [Nat.div_lt_iff_lt_mul (by omega)]
        calc n < 2 ^ (k + 1) := hn
        _ = 2 ^ k * 2 := by ring
      have := ih (n / 2) hdiv
      simp only [List.length_cons, List.length_nil]
      omega

lemma natToBin_bits (n : Nat) : ∀ b ∈ natToBin n, b ≤ 1 := by
  induction n using Nat.strong_induction_on with
  | _ n ih =>
    rw [natToBin]
    split
    · simp
    · rename_i h
      intro b hb
      rw [List.mem_append] at hb
      rcases hb with hb | hb
      · exact ih (n / 2) (Nat.div_lt_self (Nat.pos_of_ne_zero h) (by omega)) b hb
      · have : b = n % 2 := by simpa using hb
        omega

lemma jsToBinString_bits (n : Nat) : ∀ b ∈ jsToBinString n, b ≤ 1 := by
  unfold jsToBinString
  split
  · simp
  · exact natToBin_bits n

lemma jsToBinString_length_le (n : Nat) (h : n < 256) : (jsToBinString n).length ≤ 8 := by
  unfold jsToBinString
  split
  · simp
  · have h8 : (2 : Nat) ^ 8 = 256 := by norm_num
    exact natToBin_length_le 8 n (by omega)

lemma byteBits_length (b : Nat) (h : b < 256) : (byteBits b).length = 8 := by
  unfold byteBits
  have := jsToBinString_length_le b h
  simp only [List.length_append, List.length_replicate]
  omega

lemma byteBits_bits (b : Nat) : ∀ x ∈ byteBits b, x ≤ 1 := by
  intro x hx
  unfold byteBits at hx
  rw [List.mem_append] at hx
  rcases hx with hx | hx
  · rw [List.mem_replicate] at hx
    omega
  · exact jsToBinString_bits b x hx

lemma concatAll_length_byteBits (l : List Nat) (h : ∀ b ∈ l, b < 256) :
    (concatAll (l.map byteBits)).length = 8 * l.length := by
  induction l with
  | nil => rfl
  | cons b bs ih =>
    simp only [List.map_cons, concatAll, List.length_append, List.length_cons]
    rw [byteBits_length b (h b (List.mem_cons_self b bs)),
      ih (fun x hx => h x (List.mem_cons_of_mem b hx))]
    ring

lemma concatAll_bits (ls : List (List Nat)) (h : ∀ l ∈ ls, ∀ x ∈ l, x ≤ 1) :
    ∀ x ∈ concatAll ls, x ≤ 1 := by
  induction ls with
  | nil =>
    intro x hx
    simp [concatAll] at hx
  | cons l ls ih =>
    intro x hx
    simp only [concatAll, List.mem_append] at hx
    rcases hx with hx | hx
    · exact h l (List.mem_cons_self l ls) x hx
    · exact ih (fun m hm => h m (List.mem_cons_of_mem l hm)) x hx

lemma parseBin_foldl_lt (l : List Nat) : ∀ acc, (∀ b ∈ l, b ≤ 1) →
    l.foldl (fun acc b => 2 * acc + b) acc < 2 ^ l.length * (acc + 1) := by
  induction l with
  | nil =>
    intro acc _
    simp
  | cons b bs ih =>
    intro acc h
    rw [List.foldl_cons]
    have hb : b ≤ 1 := h b (List.mem_cons_self b bs)
    have hrec := ih (2 * acc + b) (fun x hx => h x (List.mem_cons_of_mem b hx))
    calc bs.foldl (fun acc b => 2 * acc + b) (2 * acc + b)
        < 2 ^ bs.length * (2 * acc + b + 1) := hrec
    _ ≤ 2 ^ bs.length * (2 * (acc + 1)) := Nat.mul_le_mul_left _ (by omega)
    _ = 2 ^ (b :: bs).length * (acc + 1) := by
        simp only [List.length_cons]
        ring

lemma parseBin_lt (l : List Nat) (h : ∀ b ∈ l, b ≤ 1) : parseBin l < 2 ^ l.length := by
  have := parseBin_foldl_lt l 0 h
  simpa [parseBin] using this

lemma getD_mem_of_lt {α : Type} (l : List α) (n : Nat) (d : α) (h : n < l.length) :
    l.getD n d ∈ l := by
  induction l generalizing n with
  | nil => simp at h
  | cons a as ih =>
    cases n with
    | zero => simp
    | succ n =>
      simp only [List.getD_cons_succ]
      exact List.mem_cons_of_mem a (ih n (by simpa using h))

lemma base32Char_mem (n : Nat) (h : n < 32) : base32Char n ∈ BASE32_CHARSET := by
  unfold base32Char
  apply getD_mem_of_lt
  have h32 : BASE32_CHARSET.length = 32 := rfl
  omega

lemma encodeBase32Go_length (bits : List Nat) :
    (encodeBase32Go bits).length = (bits.length + 4) / 5 := by
  induction bits using encodeBase32Go.induct with
  | case1 =>
    rw [encodeBase32Go]
    simp
  | case2 bits h ih =>
    rw [encodeBase32Go, dif_neg h]
    simp only [List.length_cons, ih, List.length_drop]
    have : bits.length ≠ 0 := fun hl => h (List.eq_nil_of_length_eq_zero hl)
    omega

lemma encodeBase32Go_mem (bits : List Nat) :
    (∀ b ∈ bits, b ≤ 1) → ∀ c ∈ encodeBase32Go bits, c ∈ BASE32_CHARSET := by
  induction bits using encodeBase32Go.induct with
  | case1 =>
    intro _ c hc
    rw [encodeBase32Go] at hc
    simp at hc
  | case2 bits h ih =>
    intro hb c hc
    rw [encodeBase32Go, dif_neg h] at hc
    rcases List.mem_cons.mp hc with hc | hc
    · subst hc
      apply base32Char_mem
      have h1 : parseBin (bits.take 5) < 2 ^ (bits.take 5).length :=
        parseBin_lt _ (fun b hb2 => hb b (List.mem_of_mem_take hb2))
      have h2 : (2 : Nat) ^ (bits.take 5).length ≤ 2 ^ 5 :=
        Nat.pow_le_pow_right (by omega) (by simp)
      have h3 : (2 : Nat) ^ 5 = 32 := by norm_num
      exact lt_of_lt_of_le h1 (h3 ▸ h2)
    · exact ih (fun b hb2 => hb b (List.mem_of_mem_drop hb2)) c hc

lemma encodeBase32_length (buf : List Nat) (h : ∀ b ∈ buf, b < 256) :
    (encodeBase32 buf).length = (8 * buf.length + 4) / 5 := by
  unfold encodeBase32
  have hrev : ∀ b ∈ buf.reverse, b < 256 := fun b hb => h b (List.mem_reverse.mp hb)
  rw [encodeBase32Go_length, concatAll_length_byteBits buf.reverse hrev, List.length_reverse]

lemma encodeBase32_mem (buf : List Nat) : ∀ c ∈ encodeBase32 buf, c ∈ BASE32_CHARSET := by
  unfold encodeBase32
  apply encodeBase32Go_mem
  apply concatAll_bits
  intro l hl x hx
  rw [List.mem_map] at hl
  rcases hl with ⟨b, _, rfl⟩
  exact byteBits_bits b x hx

lemma encodeBase32Go_eq_bitGroups (bits : List Nat) :
    encodeBase32Go bits = (bitGroups bits).map fun g => base32Char (parseBin g) := by
  induction bits using encodeBase32Go.induct with
  | case1 =>
    rw [encodeBase32Go, bitGroups]
    simp
  | case2 bits h ih =>
    rw [encodeBase32Go, bitGroups, dif_neg h, dif_neg h, List.map_cons, ih]

/-- Claim-relevant refinement: the source base32 encoder computes exactly
the spec-described per-5-bit-group encoding. -/
lemma encodeBase32_eq_specEncodeBase32 (buf : List Nat) :
    encodeBase32 buf = specEncodeBase32 buf := by
  unfold encodeBase32 specEncodeBase32
  exact encodeBase32Go_eq_bitGroups _

/-! Facts about derivation name sanitization. -/

lemma replaceBadRuns_nil : replaceBadRuns [] = [] := by
  rw [replaceBadRuns]

lemma replaceBadRuns_allowed (l : List Char) :
    ∀ c ∈ replaceBadRuns l, allowedChar c = true := by
  induction l using replaceBadRuns.induct with
  | case1 =>
    intro c hc
    simp [replaceBadRuns] at hc
  | case2 c rest h ih =>
    intro d hd
    rw [replaceBadRuns, if_pos h] at hd
    rcases List.mem_cons.mp hd with hd | hd
    · subst hd
      exact h
    · exact ih d hd
  | case3 c rest h ih =>
    intro d hd
    rw [replaceBadRuns, if_neg h] at hd
    rcases List.mem_cons.mp hd with hd | hd
    · subst hd
      decide
    · exact ih d hd

lemma replaceBadRuns_of_allowed (l : List Char) (h : ∀ c ∈ l, allowedChar c = true) :
    replaceBadRuns l = l := by
  induction l with
  | nil => exact replaceBadRuns_nil
  | cons c rest ih =>
    rw [replaceBadRuns, if_pos (h c (List.mem_cons_self c rest)),
      ih (fun d hd => h d (List.mem_cons_of_mem c hd))]

lemma replaceBadRuns_head (c : Char) (rest : List Char) :
    (replaceBadRuns (c :: rest)).head? = some (if allowedChar c then c else '-') := by
  by_cases h : allowedChar c = true
  · rw [replaceBadRuns, if_pos h, if_pos h, List.head?_cons]
  · rw [replaceBadRuns, if_neg h, if_neg h, List.head?_cons]

lemma dropWhile_head_false (p : Char → Bool) (l : List Char) :
    ∀ c, (l.dropWhile p).head? = some c → p c = false := by
  induction l with
  | nil =>
    intro c hc
    simp at hc
  | cons a rest ih =>
    intro c hc
    rw [List.dropWhile_cons] at hc
    split at hc
    · exact ih c hc
    · rename_i h
      rw [List.head?_cons, Option.some_inj] at hc
      subst hc
      simpa using h

lemma sanitizeDerivationName_props (x : List Char) :
    sanitizeDerivationName x ≠ [] ∧
    (sanitizeDerivationName x).length ≤ 207 ∧
    (∀ c ∈ sanitizeDerivationName x, allowedChar c = true) ∧
    (sanitizeDerivationName x).head? ≠ some '.' := by
  unfold sanitizeDerivationName
  by_cases hre : (replaceBadRuns (x.dropWhile (fun c => c = '.'))).take 207 = []
  · rw [if_pos hre]
    exact ⟨by decide, by decide, by decide, by decide⟩
  · rw [if_neg hre]
    refine ⟨hre, ?_, ?_, ?_⟩
    · rw [List.length_take]
      exact min_le_left _ _
    · intro c hc
      exact replaceBadRuns_allowed _ c (List.mem_of_mem_take hc)
    · rw [List.head?_take, if_neg (by omega : (207 : Nat) ≠ 0)]
      cases hl : x.dropWhile (fun c => c = '.') with
      | nil =>
        exfalso
        apply hre
        rw [hl, replaceBadRuns_nil]
        rfl
      | cons a rest =>
        have ha : ¬(a = '.') := by
          have := dropWhile_head_false (fun c => c = '.') x a (by rw [hl, List.head?_cons])
          simpa using this
        rw [replaceBadRuns_head a rest]
        intro hcontra
        rw [Option.some_inj] at hcontra
        by_cases hall : allowedChar a = true
        · rw [if_pos hall] at hcontra
          exact ha hcontra
        · rw [if_neg hall] at hcontra
          exact absurd hcontra (by decide)

lemma sanitizeDerivationName_of_sanitized (l : List Char) (h0 : l ≠ [])
    (h1 : l.length ≤ 207) (h2 : ∀ c ∈ l, allowedChar c = true)
    (h3 : l.head? ≠ some '.') :
    sanitizeDerivationName l = l := by
  unfold sanitizeDerivationName
  have hdw : l.dropWhile (fun c => c = '.') = l := by
    cases l with
    | nil => rfl
    | cons a rest =>
      rw [List.dropWhile_cons]
      have ha : ¬(a = '.') := fun hc => h3 (by rw [List.head?_cons, hc])
      simp [ha]
  rw [hdw, replaceBadRuns_of_allowed l h2, List.take_of_length_le h1, if_neg h0]

/-- C7: for every input string, `sanitizeDerivationName` returns a
non-empty string of length at most 207 all of whose characters lie in
`[A-Za-z0-9+._?=-]` and which does not begin with a dot; when the pipeline
yields the empty string, the constant placeholder `"unknown"` is returned. -/
theorem sanitizeDerivationName_wellformed (x : List Char) :
    sanitizeDerivationName x ≠ [] ∧
    (sanitizeDerivationName x).length ≤ 207 ∧
    (∀ c ∈ sanitizeDerivationName x, allowedChar c = true) ∧
    (sanitizeDerivationName x).head? ≠ some '.' ∧
    ((replaceBadRuns (x.dropWhile (fun c => c = '.'))).take 207 = [] →
      sanitizeDerivationName x = "unknown".toList) := by
  obtain ⟨h0, h1, h2, h3⟩ := sanitizeDerivationName_props x
  refine ⟨h0, h1, h2, h3, ?_⟩
  intro hre
  unfold sanitizeDerivationName
  rw [if_pos hre]

/-- C8: sanitization is idempotent: re-sanitizing an already-sanitized
string is a no-op. -/
theorem sanitizeDerivationName_idempotent (x : List Char) :
    sanitizeDerivationName (sanitizeDerivationName x) = sanitizeDerivationName x := by
  obtain ⟨h0, h1, h2, h3⟩ := sanitizeDerivationName_props x
  exact sanitizeDerivationName_of_sanitized _ h0 h1 h2 h3

/-! Facts about the store path derivation. -/

lemma compressHash_loop_bytes (hash : List Nat) (size : Nat) (hh : ∀ b ∈ hash, b < 256)
    (idxs : List Nat) :
    ∀ acc : List Nat, (∀ b ∈ acc, b < 256) →
    ∀ b ∈ idxs.foldl (fun result idx =>
      result.set (idx % size) (Nat.xor (result.getD (idx % size) 0) (hash.getD idx 0)))
      acc, b < 256 := by
  induction idxs with
  | nil => exact fun acc hacc => hacc
  | cons i is ih =>
    intro acc hacc
    rw [List.foldl_cons]
    apply ih
    intro b hb
    rcases List.mem_or_eq_of_mem_set hb with hb | hb
    · exact hacc b hb
    · subst hb
      have h1 : acc.getD (i % size) 0 < 256 := by
        by_cases hlt : i % size < acc.length
        · exact hacc _ (getD_mem_of_lt acc _ 0 hlt)
        · rw [List.getD_eq_getElem?_getD, List.getElem?_eq_none (by omega), Option.getD_none]
          omega
      have h2 : hash.getD i 0 < 256 := by
        by_cases hlt : i < hash.length
        · exact hh _ (getD_mem_of_lt hash _ 0 hlt)
        · rw [List.getD_eq_getElem?_getD, List.getElem?_eq_none (by omega), Option.getD_none]
          omega
      have h256 : (256 : Nat) = 2 ^ 8 := by norm_num
      rw [h256] at h1 h2 ⊢
      exact Nat.xor_lt_two_pow h1 h2

lemma compressHash_bytes (hash : List Nat) (size : Nat) (hh : ∀ b ∈ hash, b < 256) :
    ∀ b ∈ compressHash hash size, b < 256 := by
  unfold compressHash
  apply compressHash_loop_bytes hash size hh
  intro b hb
  rw [List.eq_of_mem_replicate hb]
  omega

lemma storeId_length (hashLib : String → List Char → List Nat)
    (hbytes : HashLibBytes hashLib) (s : List Char) :
    (encodeBase32 (compressHash (hashLib "sha256" s) 20)).length = 32 := by
  rw [encodeBase32_length _ (compressHash_bytes _ _ (fun b hb => hbytes "sha256" s b hb)),
    compressHash_length]

lemma computeFixedOutputStorePath_unfolded (hashLib : String → List Char → List Nat)
    (name hash hashAlgorithm storeRoot : List Char) :
    computeFixedOutputStorePath hashLib name hash hashAlgorithm storeRoot =
      storeRoot ++ ['/'] ++
        (encodeBase32 (compressHash (hashLib "sha256"
          ("output:out:sha256:".toList ++
            bufToHex (hashLib "sha256"
              ("fixed:out:".toList ++ hashAlgorithm ++ [':'] ++
                (if startsWithChars hash CACHE_KEY_NS
                 then hash.drop CACHE_KEY_NS.length else hash) ++ [':'])) ++
            [':'] ++ storeRoot ++ [':'] ++ name)) 20) ++ ['-'] ++ name) :=
  rfl

lemma startsWithChars_nil (s : List Char) : startsWithChars s [] = true := by
  cases s <;> rfl

lemma startsWithChars_append (p t : List Char) : startsWithChars (p ++ t) p = true := by
  induction p with
  | nil =>
    rw [List.nil_append]
    exact startsWithChars_nil t
  | cons c cs ih => simp [startsWithChars, ih]

lemma startsWithChars_head (s : List Char) (c : Char) (cs : List Char)
    (hs : startsWithChars s (c :: cs) = true) : s.head? = some c := by
  cases s with
  | nil => simp [startsWithChars] at hs
  | cons a as =>
    simp [startsWithChars] at hs
    rw [List.head?_cons, hs.1]

/-- C1: `computeFixedOutputStorePath` returns `storeRoot/(id ++ "-" ++ name)`
where `id` is the spec-described base32 encoding of the spec-described
20-byte XOR fold of `sha256("output:out:sha256:" ++ hex(sha256("fixed:out:"
++ alg ++ ":" ++ strippedChecksum ++ ":")) ++ ":" ++ storeRoot ++ ":" ++
name)`, the checksum being stripped of a leading cache namespace marker. -/
theorem computeFixedOutputStorePath_matches_spec
    (hashLib : String → List Char → List Nat)
    (name checksum hashAlgorithm storeRoot : List Char) :
    computeFixedOutputStorePath hashLib name checksum hashAlgorithm storeRoot =
      storeRoot ++ ['/'] ++
        (specEncodeBase32 (specCompressHash (hashLib "sha256"
          ("output:out:sha256:".toList ++
            bufToHex (hashLib "sha256"
              ("fixed:out:".toList ++ hashAlgorithm ++ [':'] ++
                (if startsWithChars checksum CACHE_KEY_NS
                 then checksum.drop CACHE_KEY_NS.length else checksum) ++ [':'])) ++
            [':'] ++ storeRoot ++ [':'] ++ name)) 20) ++ ['-'] ++ name) := by
  rw [computeFixedOutputStorePath_unfolded, compressHash_eq_specCompressHash,
    encodeBase32_eq_specEncodeBase32]

/-- C4: prefixing a hex digest with the cache namespace marker `nix.1/`
does not change the derived store path. -/
theorem computeFixedOutputStorePath_strips_ns
    (hashLib : String → List Char → List Nat)
    (name h hashAlgorithm storeRoot : List Char)
    (hhex : ∀ c ∈ h, c ∈ HEX_CHARSET) :
    computeFixedOutputStorePath hashLib name (CACHE_KEY_NS ++ h) hashAlgorithm storeRoot =
      computeFixedOutputStorePath hashLib name h hashAlgorithm storeRoot := by
  have h1 : startsWithChars (CACHE_KEY_NS ++ h) CACHE_KEY_NS = true :=
    startsWithChars_append CACHE_KEY_NS h
  have h3 : startsWithChars h CACHE_KEY_NS = false := by
    by_contra hc
    rw [Bool.not_eq_false] at hc
    have hck : CACHE_KEY_NS = 'n' :: "ix.1/".toList := by decide
    rw [hck] at hc
    have hh : h.head? = some 'n' := startsWithChars_head h 'n' _ hc
    have hn : 'n' ∈ h := by
      cases h with
      | nil => simp at hh
      | cons a as =>
        rw [List.head?_cons, Option.some_inj] at hh
        rw [hh]
        exact List.mem_cons_self _ _
    have := hhex 'n' hn
    simp [HEX_CHARSET] at this
  rw [computeFixedOutputStorePath_unfolded, computeFixedOutputStorePath_unfolded,
    h1, h3]
  have h2 : (CACHE_KEY_NS ++ h).drop CACHE_KEY_NS.length = h := List.drop_left _ _
  simp [h2]

/-- C5: for every byte buffer, the base32 output has length
`ceil(8·byteLength/5)` and draws all its characters from the fixed
32-character alphabet; in particular a 20-byte buffer yields 32 characters. -/
theorem encodeBase32_length_and_charset (buf : List Nat) (h : ∀ b ∈ buf, b < 256) :
    (encodeBase32 buf).length = (8 * buf.length + 4) / 5 ∧
    (∀ c ∈ encodeBase32 buf, c ∈ BASE32_CHARSET) ∧
    (buf.length = 20 → (encodeBase32 buf).length = 32) := by
  refine ⟨encodeBase32_length buf h, encodeBase32_mem buf, ?_⟩
  intro h20
  rw [encodeBase32_length buf h, h20]

/-- C6: distinct derivation names yield distinct store paths, for any fixed
checksum, hash algorithm and store root. -/
theorem computeFixedOutputStorePath_name_injective
    (hashLib : String → List Char → List Nat) (hbytes : HashLibBytes hashLib)
    (n1 n2 checksum hashAlgorithm storeRoot : List Char) (hne : n1 ≠ n2) :
    computeFixedOutputStorePath hashLib n1 checksum hashAlgorithm storeRoot ≠
      computeFixedOutputStorePath hashLib n2 checksum hashAlgorithm storeRoot := by
  intro heq
  rw [computeFixedOutputStorePath_unfolded, computeFixedOutputStorePath_unfolded] at heq
  have h1 := List.append_cancel_left heq
  obtain ⟨-, h3⟩ := List.append_inj h1
    (by rw [List.length_append, List.length_append,
      storeId_length hashLib hbytes, storeId_length hashLib hbytes])
  exact hne h3

/-! Facts about the fetch cache. -/

lemma fetchMissBranch_effects (hashLib : String → List Char → List Nat)
    (env : FetchEnv) (d : List Char) :
    (fetchMissBranch hashLib env d).1.loaderCalls = 1 ∧
    (fetchMissBranch hashLib env d).1.onMissCalled = true ∧
    (fetchMissBranch hashLib env d).1.onHitCalled = false := by
  unfold fetchMissBranch
  split
  · exact ⟨rfl, rfl, rfl⟩
  · split
    · exact ⟨rfl, rfl, rfl⟩
    · split
      · exact ⟨rfl, rfl, rfl⟩
      · exact ⟨rfl, rfl, rfl⟩

lemma fetchMissBranch_ok (hashLib : String → List Char → List Nat)
    (env : FetchEnv) (d : List Char) (sp ck : List Char)
    (h : (fetchMissBranch hashLib env d).2 = Except.ok (sp, ck)) :
    ck = CACHE_KEY_NS ++ env.fileChecksum env.loaderResult ∧
    sp = computeFixedOutputStorePath hashLib d
      (CACHE_KEY_NS ++ env.fileChecksum env.loaderResult) := by
  unfold fetchMissBranch at h
  split at h
  · simp only [Except.ok.injEq, Prod.mk.injEq] at h
    exact ⟨h.2.symm, h.1.symm⟩
  · split at h
    · simp at h
    · split at h
      · simp at h
      · simp only [Except.ok.injEq, Prod.mk.injEq] at h
        exact ⟨h.2.symm, h.1.symm⟩

/-- Unfolding of the fetch on a present expected checksum. -/
lemma fetch_some_eq (hashLib : String → List Char → List Nat)
    (env : FetchEnv) (locatorStr : List Char) (c : List Char) :
    fetchPackageFromNixStore hashLib env locatorStr (some c) =
      (if c = [] then fetchMissBranch hashLib env (locatorDerivationName locatorStr)
       else if env.fsBeforeLoad (computeFixedOutputStorePath hashLib
           (locatorDerivationName locatorStr) c) then
         ({ onHitCalled := true, onMissCalled := false, loaderCalls := 0,
            importCalled := false, discardedArtifact := false, renamedTo := none },
          Except.ok (computeFixedOutputStorePath hashLib
            (locatorDerivationName locatorStr) c, c))
       else fetchMissBranch hashLib env (locatorDerivationName locatorStr)) :=
  rfl

/-- Whenever the expected checksum is absent or the predicted path does not
exist, the call reduces to the miss branch. -/
lemma fetch_miss_eq (hashLib : String → List Char → List Nat)
    (env : FetchEnv) (locatorStr : List Char) (ec : Option (List Char))
    (h : ec = none ∨ ∃ c, ec = some c ∧
      env.fsBeforeLoad (computeFixedOutputStorePath hashLib
        (locatorDerivationName locatorStr) c) = false) :
    fetchPackageFromNixStore hashLib env locatorStr ec =
      fetchMissBranch hashLib env (locatorDerivationName locatorStr) := by
  rcases h with h | ⟨c, hec, hc⟩
  · subst h
    rfl
  · subst hec
    rw [fetch_some_eq]
    by_cases hce : c = []
    · rw [if_pos hce]
    · rw [if_neg hce, if_neg (by rw [Bool.not_eq_true]; exact hc)]

/-- C2 (amended): with a non-null *and non-empty* expected checksum whose
predicted store path exists on disk, the loader is never invoked, a hit is
reported, and the returned checksum is exactly the expected one. -/
theorem fetch_predicted_hit (hashLib : String → List Char → List Nat)
    (env : FetchEnv) (locatorStr : List Char) (c : List Char)
    (hc : c ≠ [])
    (hex : env.fsBeforeLoad (computeFixedOutputStorePath hashLib
      (locatorDerivationName locatorStr) c) = true) :
    (fetchPackageFromNixStore hashLib env locatorStr (some c)).1.loaderCalls = 0 ∧
    (fetchPackageFromNixStore hashLib env locatorStr (some c)).1.onHitCalled = true ∧
    (fetchPackageFromNixStore hashLib env locatorStr (some c)).2 =
      Except.ok (computeFixedOutputStorePath hashLib (locatorDerivationName locatorStr) c,
        c) := by
  rw [fetch_some_eq, if_neg hc, if_pos hex]
  exact ⟨rfl, rfl, rfl⟩

/-- Environment in which every filesystem existence probe answers `true`. -/
def raceEnv : FetchEnv where
  fsBeforeLoad := fun _ => true
  loaderResult := "/tmp/x/archive.zip".toList
  fileChecksum := fun _ => "abc".toList
  fsAfterLoad := fun _ => true
  importOk := true
  importStdout := []

/-- Environment in which every filesystem existence probe answers `false`
and the import subprocess succeeds. -/
def missEnvNoRace : FetchEnv where
  fsBeforeLoad := fun _ => false
  loaderResult := "/tmp/x/archive.zip".toList
  fileChecksum := fun _ => "abc".toList
  fsAfterLoad := fun _ => false
  importOk := true
  importStdout := "out".toList

/-- C2 counterexample: the expected checksum `some []` is non-null, the
predicted path exists (every path exists in `raceEnv`), yet JavaScript
truthiness sends the call down the miss branch: the loader is invoked and
no hit is reported. -/
theorem fetch_predicted_hit_cex :
    (some ([] : List Char)) ≠ none ∧
    raceEnv.fsBeforeLoad (computeFixedOutputStorePath constHashLib
      (locatorDerivationName "pkg".toList) []) = true ∧
    (fetchPackageFromNixStore constHashLib raceEnv "pkg".toList (some [])).1.loaderCalls = 1 ∧
    (fetchPackageFromNixStore constHashLib raceEnv "pkg".toList
      (some [])).1.onHitCalled = false :=
  ⟨by simp, rfl, rfl, rfl⟩

/-- Witness for the amended hit theorem at a concrete environment. -/
theorem fetch_predicted_hit_witness :
    ("a".toList : List Char) ≠ [] ∧
    raceEnv.fsBeforeLoad (computeFixedOutputStorePath constHashLib
      (locatorDerivationName "pkg".toList) "a".toList) = true ∧
    ((fetchPackageFromNixStore constHashLib raceEnv "pkg".toList
        (some "a".toList)).1.loaderCalls = 0 ∧
      (fetchPackageFromNixStore constHashLib raceEnv "pkg".toList
        (some "a".toList)).1.onHitCalled = true ∧
      (fetchPackageFromNixStore constHashLib raceEnv "pkg".toList (some "a".toList)).2 =
        Except.ok (computeFixedOutputStorePath constHashLib
          (locatorDerivationName "pkg".toList) "a".toList, "a".toList)) :=
  ⟨by decide, rfl,
    fetch_predicted_hit constHashLib raceEnv "pkg".toList "a".toList (by decide) rfl⟩

/-- C3: on the miss branch the loader runs exactly once, a miss is
reported, and any successfully returned pair carries the namespaced
checksum of the loader artifact together with the store path re-derived
from it. -/
theorem fetch_miss_behavior (hashLib : String → List Char → List Nat)
    (env : FetchEnv) (locatorStr : List Char) (ec : Option (List Char))
    (h : ec = none ∨ ∃ c, ec = some c ∧
      env.fsBeforeLoad (computeFixedOutputStorePath hashLib
        (locatorDerivationName locatorStr) c) = false) :
    (fetchPackageFromNixStore hashLib env locatorStr ec).1.loaderCalls = 1 ∧
    (fetchPackageFromNixStore hashLib env locatorStr ec).1.onMissCalled = true ∧
    (∀ sp ck, (fetchPackageFromNixStore hashLib env locatorStr ec).2 = Except.ok (sp, ck) →
      ck = CACHE_KEY_NS ++ env.fileChecksum env.loaderResult ∧
      sp = computeFixedOutputStorePath hashLib (locatorDerivationName locatorStr)
        (CACHE_KEY_NS ++ env.fileChecksum env.loaderResult)) := by
  rw [fetch_miss_eq hashLib env locatorStr ec h]
  obtain ⟨h1, h2, -⟩ := fetchMissBranch_effects hashLib env (locatorDerivationName locatorStr)
  exact ⟨h1, h2, fun sp ck hok => fetchMissBranch_ok hashLib env _ sp ck hok⟩

/-- Witness for the miss theorem at a concrete environment. -/
theorem fetch_miss_behavior_witness :
    ((none : Option (List Char)) = none ∨ ∃ c, (none : Option (List Char)) = some c ∧
      missEnvNoRace.fsBeforeLoad (computeFixedOutputStorePath constHashLib
        (locatorDerivationName "pkg".toList) c) = false) ∧
    ((fetchPackageFromNixStore constHashLib missEnvNoRace "pkg".toList
        none).1.loaderCalls = 1 ∧
      (fetchPackageFromNixStore constHashLib missEnvNoRace "pkg".toList
        none).1.onMissCalled = true ∧
      (∀ sp ck, (fetchPackageFromNixStore constHashLib missEnvNoRace "pkg".toList none).2 =
          Except.ok (sp, ck) →
        ck = CACHE_KEY_NS ++ missEnvNoRace.fileChecksum missEnvNoRace.loaderResult ∧
        sp = computeFixedOutputStorePath constHashLib (locatorDerivationName "pkg".toList)
          (CACHE_KEY_NS ++ missEnvNoRace.fileChecksum missEnvNoRace.loaderResult))) :=
  ⟨Or.inl rfl,
    fetch_miss_behavior constHashLib missEnvNoRace "pkg".toList none (Or.inl rfl)⟩

/-- C9: on the miss branch without a destination race, and with a
successful import subprocess, the import runs and an AssertionFailure is
thrown exactly when the trimmed subprocess output differs from the locally
computed store path; on equality the fetch returns successfully. -/
theorem fetch_import_assertion (hashLib : String → List Char → List Nat)
    (env : FetchEnv) (locatorStr : List Char) (ec : Option (List Char))
    (hmiss : ec = none ∨ ∃ c, ec = some c ∧
      env.fsBeforeLoad (computeFixedOutputStorePath hashLib
        (locatorDerivationName locatorStr) c) = false)
    (hnr : env.fsAfterLoad (computeFixedOutputStorePath hashLib
      (locatorDerivationName locatorStr)
      (CACHE_KEY_NS ++ env.fileChecksum env.loaderResult)) = false)
    (hok : env.importOk = true) :
    (fetchPackageFromNixStore hashLib env locatorStr ec).1.importCalled = true ∧
    ((fetchPackageFromNixStore hashLib env locatorStr ec).2 =
        Except.error ASSERTION_FAILURE_MSG ↔
      jsTrim env.importStdout ≠ computeFixedOutputStorePath hashLib
        (locatorDerivationName locatorStr)
        (CACHE_KEY_NS ++ env.fileChecksum env.loaderResult)) ∧
    (jsTrim env.importStdout = computeFixedOutputStorePath hashLib
        (locatorDerivationName locatorStr)
        (CACHE_KEY_NS ++ env.fileChecksum env.loaderResult) →
      (fetchPackageFromNixStore hashLib env locatorStr ec).2 =
        Except.ok (computeFixedOutputStorePath hashLib (locatorDerivationName locatorStr)
          (CACHE_KEY_NS ++ env.fileChecksum env.loaderResult),
          CACHE_KEY_NS ++ env.fileChecksum env.loaderResult)) := by
  rw [fetch_miss_eq hashLib env locatorStr ec hmiss]
  unfold fetchMissBranch
  rw [if_neg (by rw [Bool.not_eq_true]; exact hnr), if_neg (by rw [hok]; decide)]
  by_cases hd : jsTrim env.importStdout = computeFixedOutputStorePath hashLib
      (locatorDerivationName locatorStr)
      (CACHE_KEY_NS ++ env.fileChecksum env.loaderResult)
  · rw [if_neg (fun hne => hne hd)]
    refine ⟨rfl, ?_, fun _ => rfl⟩
    constructor
    · intro hcontra
      simp at hcontra
    · intro hcontra
      exact absurd hd hcontra
  · rw [if_pos hd]
    exact ⟨rfl, ⟨fun _ => hd, fun _ => rfl⟩, fun heq => absurd heq hd⟩

/-- Witness for the import assertion theorem at a concrete environment. -/
theorem fetch_import_assertion_witness :
    ((none : Option (List Char)) = none ∨ ∃ c, (none : Option (List Char)) = some c ∧
      missEnvNoRace.fsBeforeLoad (computeFixedOutputStorePath constHashLib
        (locatorDerivationName "pkg".toList) c) = false) ∧
    missEnvNoRace.fsAfterLoad (computeFixedOutputStorePath constHashLib
      (locatorDerivationName "pkg".toList)
      (CACHE_KEY_NS ++ missEnvNoRace.fileChecksum missEnvNoRace.loaderResult)) = false ∧
    missEnvNoRace.importOk = true ∧
    ((fetchPackageFromNixStore constHashLib missEnvNoRace "pkg".toList
        none).1.importCalled = true ∧
      ((fetchPackageFromNixStore constHashLib missEnvNoRace "pkg".toList none).2 =
          Except.error ASSERTION_FAILURE_MSG ↔
        jsTrim missEnvNoRace.importStdout ≠ computeFixedOutputStorePath constHashLib
          (locatorDerivationName "pkg".toList)
          (CACHE_KEY_NS ++ missEnvNoRace.fileChecksum missEnvNoRace.loaderResult)) ∧
      (jsTrim missEnvNoRace.importStdout = computeFixedOutputStorePath constHashLib
          (locatorDerivationName "pkg".toList)
          (CACHE_KEY_NS ++ missEnvNoRace.fileChecksum missEnvNoRace.loaderResult) →
        (fetchPackageFromNixStore constHashLib missEnvNoRace "pkg".toList none).2 =
          Except.ok (computeFixedOutputStorePath constHashLib
            (locatorDerivationName "pkg".toList)
            (CACHE_KEY_NS ++ missEnvNoRace.fileChecksum missEnvNoRace.loaderResult),
            CACHE_KEY_NS ++ missEnvNoRace.fileChecksum missEnvNoRace.loaderResult))) :=
  ⟨Or.inl rfl, rfl, rfl,
    fetch_import_assertion constHashLib missEnvNoRace "pkg".toList none
      (Or.inl rfl) rfl rfl⟩

/-- C10: if the re-derived store path already exists at import time, the
fresh artifact is discarded, no import runs, and the fetch completes
successfully. -/
theorem fetch_destination_race (hashLib : String → List Char → List Nat)
    (env : FetchEnv) (locatorStr : List Char) (ec : Option (List Char))
    (hmiss : ec = none ∨ ∃ c, ec = some c ∧
      env.fsBeforeLoad (computeFixedOutputStorePath hashLib
        (locatorDerivationName locatorStr) c) = false)
    (hr : env.fsAfterLoad (computeFixedOutputStorePath hashLib
      (locatorDerivationName locatorStr)
      (CACHE_KEY_NS ++ env.fileChecksum env.loaderResult)) = true) :
    (fetchPackageFromNixStore hashLib env locatorStr ec).1.discardedArtifact = true ∧
    (fetchPackageFromNixStore hashLib env locatorStr ec).1.importCalled = false ∧
    (fetchPackageFromNixStore hashLib env locatorStr ec).2 =
      Except.ok (computeFixedOutputStorePath hashLib (locatorDerivationName locatorStr)
        (CACHE_KEY_NS ++ env.fileChecksum env.loaderResult),
        CACHE_KEY_NS ++ env.fileChecksum env.loaderResult) := by
  rw [fetch_miss_eq hashLib env locatorStr ec hmiss]
  unfold fetchMissBranch
  rw [if_pos hr]
  exact ⟨rfl, rfl, rfl⟩

/-- Witness for the destination race theorem at a concrete environment. -/
theorem fetch_destination_race_witness :
    ((none : Option (List Char)) = none ∨ ∃ c, (none : Option (List Char)) = some c ∧
      raceEnv.fsBeforeLoad (computeFixedOutputStorePath constHashLib
        (locatorDerivationName "pkg".toList) c) = false) ∧
    raceEnv.fsAfterLoad (computeFixedOutputStorePath constHashLib
      (locatorDerivationName "pkg".toList)
      (CACHE_KEY_NS ++ raceEnv.fileChecksum raceEnv.loaderResult)) = true ∧
    ((fetchPackageFromNixStore constHashLib raceEnv "pkg".toList
        none).1.discardedArtifact = true ∧
      (fetchPackageFromNixStore constHashLib raceEnv "pkg".toList
        none).1.importCalled = false ∧
      (fetchPackageFromNixStore constHashLib raceEnv "pkg".toList none).2 =
        Except.ok (computeFixedOutputStorePath constHashLib
          (locatorDerivationName "pkg".toList)
          (CACHE_KEY_NS ++ raceEnv.fileChecksum raceEnv.loaderResult),
          CACHE_KEY_NS ++ raceEnv.fileChecksum raceEnv.loaderResult)) :=
  ⟨Or.inl rfl, rfl,
    fetch_destination_race constHashLib raceEnv "pkg".toList none (Or.inl rfl) rfl⟩

/-- Witness for the namespace stripping theorem at a concrete hex digest. -/
theorem computeFixedOutputStorePath_strips_ns_witness :
    (∀ c ∈ ("ab".toList : List Char), c ∈ HEX_CHARSET) ∧
    computeFixedOutputStorePath constHashLib "n".toList (CACHE_KEY_NS ++ "ab".toList)
        "sha512".toList "/nix/store".toList =
      computeFixedOutputStorePath constHashLib "n".toList "ab".toList
        "sha512".toList "/nix/store".toList :=
  ⟨by decide,
    computeFixedOutputStorePath_strips_ns constHashLib "n".toList "ab".toList
      "sha512".toList "/nix/store".toList (by decide)⟩

/-- Witness for the base32 length and alphabet theorem at a concrete
buffer. -/
theorem encodeBase32_length_and_charset_witness :
    (∀ b ∈ ([0, 255, 17] : List Nat), b < 256) ∧
    ((encodeBase32 [0, 255, 17]).length = (8 * ([0, 255, 17] : List Nat).length + 4) / 5 ∧
      (∀ c ∈ encodeBase32 [0, 255, 17], c ∈ BASE32_CHARSET) ∧
      (([0, 255, 17] : List Nat).length = 20 → (encodeBase32 [0, 255, 17]).length = 32)) :=
  ⟨by decide, encodeBase32_length_and_charset [0, 255, 17] (by decide)⟩

/-- Witness for the name sensitivity theorem at two concrete names. -/
theorem computeFixedOutputStorePath_name_injective_witness :
    HashLibBytes constHashLib ∧ ("a".toList : List Char) ≠ "b".toList ∧
    computeFixedOutputStorePath constHashLib "a".toList "ck".toList
        "sha512".toList "/nix/store".toList ≠
      computeFixedOutputStorePath constHashLib "b".toList "ck".toList
        "sha512".toList "/nix/store".toList := by
  have hbp : HashLibBytes constHashLib := by
    intro a s b hb
    rw [List.eq_of_mem_replicate hb]
    omega
  exact ⟨hbp, by decide,
    computeFixedOutputStorePath_name_injective constHashLib hbp "a".toList "b".toList
      "ck".toList "sha512".toList "/nix/store".toList (by decide)⟩

end YarnNixpkgs
